import Mathlib

/-!
Shallow embedding of the `urn-rs` weighted random sampling library.

Source layout:
  * `src/types.rs`          : `Tree`, `Urn`, `weight`, `sample_index`,
                              `update_index`, `replace_index`
  * `src/urn.rs`            : `singleton`, `from_list_naive`, `from_list`,
                              `insert`, `uninsert`, `remove_index`
  * `src/almost_perfect.rs` : `reverse_bits`, `almost_perfect`
  * `src/quickcheck_tests.rs` : `tree_count`, `sum_leaf_weights`,
                              `weights_match`, `is_wf`

Modelling conventions:
  * `Weight = u8` in the source.  Weights are embedded as `Nat`; every u8
    addition and subtraction in the source is modelled by `wadd` / `wsub`,
    i.e. arithmetic modulo 2^8 = 256 (`wrapping_add` / `wrapping_sub`; the
    few places where the source uses plain `+` / `-` on u8 have the same
    mod-256 semantics in release builds, and the spec mandates a uniform
    wrapping policy for weight arithmetic).
  * `size` and the insertion path are `u32` in the source; they count
    heap-allocated tree leaves, so their arithmetic never reaches 2^32 and
    is embedded as exact `Nat` arithmetic.
  * Rust panics (the input-exhausted branches of `almost_perfect`) are
    modelled by `Option`: `none` is a panic.
-/

namespace Urns

/-- u8 `wrapping_add`. -/
def wadd (a b : Nat) : Nat := (a + b) % 256

/-- u8 `wrapping_sub`. -/
def wsub (a b : Nat) : Nat := (a % 256 + 256 - b % 256) % 256

/-- `Tree<T>` from `src/types.rs`: a binary tree with a weight at each
node and leaf. -/
inductive Tree (α : Type) where
  | leaf : Nat → α → Tree α
  | node : Nat → Tree α → Tree α → Tree α
deriving DecidableEq

open Tree

/-- `Urn<T>` from `src/types.rs`: a tree together with its `size`. -/
structure Urn (α : Type) where
  size : Nat
  tree : Tree α
deriving DecidableEq

/-- `Tree::weight` from `src/types.rs`. -/
def Tree.weight : Tree α → Nat
  | leaf w _ => w
  | node w _ _ => w

/-- `Tree::sample_index` from `src/types.rs`.  (`i - wl` cannot underflow
in the branch where it is taken, so `Nat` subtraction is exact here.) -/
def Tree.sample_index : Tree α → Nat → α
  | leaf _ a, _ => a
  | node _ l r, i =>
    let wl := l.weight
    if i < wl then l.sample_index i else r.sample_index (i - wl)

/-- `Tree::update_index` from `src/types.rs`.  The rebuilt node weight is
`w - old.0 + new.0` on u8, i.e. wrapping. -/
def Tree.update_index : Tree α → (Nat → α → Nat × α) → Nat → (Nat × α) × (Nat × α) × Tree α
  | leaf w a, f, _ =>
    let n := f w a
    ((w, a), n, leaf n.1 n.2)
  | node w l r, f, i =>
    let wl := l.weight
    if i < wl then
      let res := l.update_index f i
      (res.1, res.2.1, node (wadd (wsub w res.1.1) res.2.1.1) res.2.2 r)
    else
      let res := r.update_index f (i - wl)
      (res.1, res.2.1, node (wadd (wsub w res.1.1) res.2.1.1) l res.2.2)

/-- `Tree::replace_index` from `src/types.rs`.  The rebuilt node weight is
`w.wrapping_sub(old.0).wrapping_add(w_outer)`. -/
def Tree.replace_index : Tree α → Nat → α → Nat → (Nat × α) × Tree α
  | leaf w a, wOuter, aOuter, _ => ((w, a), leaf wOuter aOuter)
  | node w l r, wOuter, aOuter, i =>
    let wl := l.weight
    if i < wl then
      let res := l.replace_index wOuter aOuter i
      (res.1, node (wadd (wsub w res.1.1) wOuter) res.2 r)
    else
      let res := r.replace_index wOuter aOuter (i - wl)
      (res.1, node (wadd (wsub w res.1.1) wOuter) l res.2)

/-- `test_bit` from `src/urn.rs`: whether bit `n` of `input` is set. -/
def test_bit (input n : Nat) : Bool := (input &&& (1 <<< n)) != 0

/-- `singleton` from `src/urn.rs`. -/
def singleton (w : Nat) (a : α) : Urn α := ⟨1, leaf w a⟩

/-- The nested helper `go` of `Urn::insert` from `src/urn.rs`: walk the
`path` (low bit first, 0 = left, 1 = right), bump every node weight by
`w_outer` (wrapping), and at the reached leaf pair it with a fresh leaf
holding `(w_outer, a_outer)` on the right. -/
def insert_go (wOuter : Nat) (aOuter : α) : Nat → Tree α → Tree α
  | _, leaf w a => node (wadd w wOuter) (leaf w a) (leaf wOuter aOuter)
  | path, node w l r =>
    let newPath := path >>> 1
    if test_bit path 0 then
      node (wadd w wOuter) l (insert_go wOuter aOuter newPath r)
    else
      node (wadd w wOuter) (insert_go wOuter aOuter newPath l) r

/-- `Urn::insert` from `src/urn.rs`: the path is the pre-insertion `size`. -/
def Urn.insert (u : Urn α) (wOuter : Nat) (aOuter : α) : Urn α :=
  ⟨u.size + 1, insert_go wOuter aOuter u.size u.tree⟩

/-- The nested helper `go` of `Urn::uninsert` from `src/urn.rs`.  Note
that both `Node` branches return the recursive call's `lb` unchanged. -/
def uninsert_go : Nat → Tree α → (Nat × α) × Nat × Option (Tree α)
  | _, leaf w a => ((w, a), 0, none)
  | path, node w l r =>
    let newPath := path >>> 1
    if test_bit path 0 then
      let res := uninsert_go newPath r
      let newTree := match res.2.2 with
        | none => l
        | some rNew => node (wsub w res.1.1) l rNew
      (res.1, res.2.1, some newTree)
    else
      let res := uninsert_go newPath l
      let newTree := match res.2.2 with
        | none => r
        | some lNew => node (wsub w res.1.1) lNew r
      (res.1, res.2.1, some newTree)

/-- `Urn::uninsert` from `src/urn.rs`: the path is `size - 1`. -/
def Urn.uninsert (u : Urn α) : (Nat × α) × Nat × Option (Urn α) :=
  let res := uninsert_go (u.size - 1) u.tree
  (res.1, res.2.1, res.2.2.map fun t => ⟨u.size - 1, t⟩)

/-- `Urn::replace_index` from `src/urn.rs` (delegates to the tree). -/
def Urn.replace_index (u : Urn α) (w : Nat) (a : α) (i : Nat) : (Nat × α) × Urn α :=
  let res := u.tree.replace_index w a i
  (res.1, ⟨u.size, res.2⟩)

/-- `Urn::update_index` from `src/urn.rs` (delegates to the tree). -/
def Urn.update_index (u : Urn α) (f : Nat → α → Nat × α) (i : Nat) :
    (Nat × α) × (Nat × α) × Urn α :=
  let res := u.tree.update_index f i
  (res.1, res.2.1, ⟨u.size, res.2.2⟩)

/-- `Urn::sample_index` from `src/urn.rs`. -/
def Urn.sample_index (u : Urn α) (i : Nat) : α := u.tree.sample_index i

/-- `Urn::remove_index` from `src/urn.rs`: `uninsert`, then a three-way
comparison of `i` against the returned `lb` and `lb + w` (u8 `+`/`-`,
hence wrapping). -/
def Urn.remove_index (u : Urn α) (i : Nat) : (Nat × α) × Option (Urn α) :=
  let res := u.uninsert
  let w := res.1.1
  let a := res.1.2
  let lb := res.2.1
  match res.2.2 with
  | none => ((w, a), none)
  | some newUrn =>
    if i < lb then
      let rres := newUrn.replace_index w a i
      ((rres.1.1, rres.1.2), some rres.2)
    else if i < wadd lb w then
      ((w, a), some newUrn)
    else
      let rres := newUrn.replace_index w a (wsub i w)
      ((rres.1.1, rres.1.2), some rres.2)

/-- `from_list_naive` from `src/urn.rs`: fold `insert` over a singleton
of the first element; empty input gives `none`. -/
def from_list_naive (elems : List (Nat × α)) : Option (Urn α) :=
  match elems with
  | [] => none
  | (w, a) :: ws => some (ws.foldl (fun acc p => acc.insert p.1 p.2) (singleton w a))

/-- The nested helper `go` of `reverse_bits` from `src/almost_perfect.rs`. -/
def reverse_bits_go : Nat → Nat → Nat → Nat
  | r, 0, _ => r
  | r, n + 1, x => reverse_bits_go ((r <<< 1) ||| (x &&& 1)) n (x >>> 1)

/-- `reverse_bits` from `src/almost_perfect.rs`: reverses the lowest `n`
bits of `x`. -/
def reverse_bits (n x : Nat) : Nat := reverse_bits_go 0 n x

/-- The weight-summing smart constructor `node` of
`src/almost_perfect.rs` (u8 `+`, hence wrapping). -/
def ap_node (l r : Tree α) : Tree α := node (wadd l.weight r.weight) l r

/-- The nested helper `go` of `almost_perfect` from
`src/almost_perfect.rs`.  `none` models the two input-exhausted
contract-violation branches.  `ogSize` is carried like in the source
(it only feeds the panic message there). -/
def ap_go (ogSize perfectDepth remainder : Nat) :
    Nat → Nat → List (Nat × α) → Option (Tree α × List (Nat × α) × Nat)
  | 0, index, elems =>
    if reverse_bits perfectDepth index < remainder then
      match elems with
      | (wl, tl) :: (wr, tr) :: tail =>
        some (ap_node (leaf wl tl) (leaf wr tr), tail, index + 1)
      | _ => none
    else
      match elems with
      | (w, x) :: tail => some (leaf w x, tail, index + 1)
      | _ => none
  | depth + 1, index, elems =>
    match ap_go ogSize perfectDepth remainder depth index elems with
    | none => none
    | some (l, lElems, lIndex) =>
      match ap_go ogSize perfectDepth remainder depth lIndex lElems with
      | none => none
      | some (r, rElems, rIndex) => some (ap_node l r, rElems, rIndex)

/-- Fuel-driven embedding of `u32::ilog2` (floor of log2; fuel `n` is
always sufficient for input `n`). -/
def ilog2_fuel : Nat → Nat → Nat
  | 0, _ => 0
  | fuel + 1, n => if 2 ≤ n then ilog2_fuel fuel (n / 2) + 1 else 0

/-- `u32::ilog2` as used in `src/almost_perfect.rs`. -/
def ilog2 (n : Nat) : Nat := ilog2_fuel n n

/-- `almost_perfect` from `src/almost_perfect.rs`.  Note the source
computes `remainder = original_size - (perfect_depth << 1)`, i.e.
`n - 2 * d`, and discards the unconsumed suffix of the input. -/
def almost_perfect (elems : List (Nat × α)) : Option (Tree α) :=
  let originalSize := elems.length
  let perfectDepth := ilog2 originalSize
  let remainder := originalSize - (perfectDepth <<< 1)
  (ap_go originalSize perfectDepth remainder perfectDepth 0 elems).map fun x => x.1

/-- `from_list` from `src/urn.rs`.  The outer `Option` models the panic
inside `almost_perfect` (`none` = panic); the inner one is the source's
return value (`none` = empty input). -/
def from_list (elems : List (Nat × α)) : Option (Option (Urn α)) :=
  if elems.isEmpty then some none
  else (almost_perfect elems).map fun tree => some ⟨elems.length, tree⟩

/-- `Tree::tree_count` from `src/quickcheck_tests.rs` (u32 counts; exact
`Nat` arithmetic, see the header). -/
def Tree.tree_count : Tree α → Nat
  | leaf _ _ => 1
  | node _ l r => l.tree_count + r.tree_count

/-- `Tree::sum_leaf_weights` from `src/quickcheck_tests.rs`
(u8 `wrapping_add` of all leaf weights). -/
def Tree.sum_leaf_weights : Tree α → Nat
  | leaf w _ => w
  | node _ l r => wadd l.sum_leaf_weights r.sum_leaf_weights

/-- `Tree::weights_match` from `src/quickcheck_tests.rs`: each node's
weight equals the (wrapping) sum of its subtree's leaf weights. -/
def Tree.weights_match : Tree α → Bool
  | leaf _ _ => true
  | node w l r =>
    (w == wadd l.sum_leaf_weights r.sum_leaf_weights)
      && l.weights_match && r.weights_match

/-- `Urn::is_wf` from `src/quickcheck_tests.rs`: I2 (leaf count = size)
and I1 (weights match), as checked by the repository itself. -/
def Urn.is_wf (u : Urn α) : Bool :=
  (u.tree.tree_count == u.size) && u.tree.weights_match

/- ------------------------------------------------------------------ -/
/- Verification-only definitions (not part of the source).            -/
/- ------------------------------------------------------------------ -/

/-- Exact (non-wrapping) total leaf weight of a tree. -/
def totalLeafWeight : Tree α → Nat
  | leaf w _ => w
  | node _ l r => totalLeafWeight l + totalLeafWeight r

/-- Exact weight consistency: invariant I1 of the spec with
non-overflowing sums — every node weight is the exact sum of its
subtree's leaf weights. -/
def exact_weights : Tree α → Bool
  | leaf _ _ => true
  | node w l r =>
    (w == totalLeafWeight l + totalLeafWeight r)
      && exact_weights l && exact_weights r

/-- All stored weights fit in a u8 (they always do in the Rust source,
by typing). -/
def bounded : Tree α → Bool
  | leaf w _ => decide (w < 256)
  | node w l r => decide (w < 256) && bounded l && bounded r

/-- Value of the rightmost leaf. -/
def rightmost_value : Tree α → α
  | leaf _ a => a
  | node _ _ r => rightmost_value r

/-- The bit path `p` is consistent with the shape of `t` for the
insert/uninsert pair: following `p` (low bit first, 1 = right) through
`t` reaches a leaf with the remaining path odd.  This holds of every
urn the library itself builds, with `p` its size. -/
def insert_path_ok : Nat → Tree α → Bool
  | p, leaf _ _ => p % 2 == 1
  | p, node _ l r =>
    if test_bit p 0 then insert_path_ok (p >>> 1) r else insert_path_ok (p >>> 1) l

/- ------------------------------------------------------------------ -/
/- Basic arithmetic and bit-manipulation lemmas.                      -/
/- ------------------------------------------------------------------ -/

theorem wadd_lt (a b : Nat) : wadd a b < 256 := Nat.mod_lt _ (by omega)

theorem wsub_lt (a b : Nat) : wsub a b < 256 := Nat.mod_lt _ (by omega)

theorem test_bit_zero_eq (p : Nat) : test_bit p 0 = decide (p % 2 = 1) := by
  have h1 : (1 : Nat) <<< 0 = 1 := rfl
  have h2 : p &&& 1 = p % 2 := Nat.and_one_is_mod p
  simp only [test_bit, h1, h2, bne_iff_ne, ne_eq]
  have := Nat.mod_two_eq_zero_or_one p
  rcases this with h | h <;> simp [h]

theorem shiftRight_one (p : Nat) : p >>> 1 = p / 2 := by
  rw [Nat.shiftRight_eq_div_pow]

theorem two_mul_lor_bit (r b : Nat) (hb : b < 2) : 2 * r ||| b = 2 * r + b := by
  interval_cases b
  · simp
  · apply Nat.eq_of_testBit_eq
    intro i
    cases i with
    | zero =>
      rw [Nat.testBit_or]
      simp only [Nat.testBit_zero]
      have : (2 * r) % 2 = 0 := by omega
      have h2 : (2 * r + 1) % 2 = 1 := by omega
      simp [this, h2]
    | succ j =>
      rw [Nat.testBit_or]
      simp only [Nat.testBit_succ]
      have h1 : 2 * r / 2 = r := by omega
      have h2 : (2 * r + 1) / 2 = r := by omega
      have h3 : (1 : Nat) / 2 = 0 := by norm_num
      simp [h1, h2, h3, Nat.zero_testBit]

theorem reverse_bits_go_step (r n x : Nat) :
    reverse_bits_go r (n + 1) x = reverse_bits_go (2 * r + x % 2) n (x / 2) := by
  have h1 : r <<< 1 = 2 * r := by rw [Nat.shiftLeft_eq]; ring
  have h2 : x &&& 1 = x % 2 := Nat.and_one_is_mod x
  have h3 : x >>> 1 = x / 2 := shiftRight_one x
  have h4 : 2 * r ||| x % 2 = 2 * r + x % 2 := two_mul_lor_bit r (x % 2) (by omega)
  simp [reverse_bits_go, h1, h2, h3, h4]

theorem reverse_bits_go_eq (n : Nat) :
    ∀ r x, reverse_bits_go r n x = r * 2 ^ n + reverse_bits n x := by
  induction n with
  | zero => intro r x; simp [reverse_bits_go, reverse_bits]
  | succ m ih =>
    intro r x
    rw [reverse_bits_go_step, ih]
    have h : reverse_bits (m + 1) x = x % 2 * 2 ^ m + reverse_bits m (x / 2) := by
      rw [reverse_bits, reverse_bits_go_step, ih]; ring
    rw [h, pow_succ]; ring

theorem reverse_bits_succ (n x : Nat) :
    reverse_bits (n + 1) x = x % 2 * 2 ^ n + reverse_bits n (x / 2) := by
  rw [reverse_bits, reverse_bits_go_step, reverse_bits_go_eq]; ring

theorem reverse_bits_lt (n : Nat) : ∀ x, reverse_bits n x < 2 ^ n := by
  induction n with
  | zero => intro x; simp [reverse_bits, reverse_bits_go]
  | succ m ih =>
    intro x
    rw [reverse_bits_succ, pow_succ]
    have h1 := ih (x / 2)
    have h2 : x % 2 ≤ 1 := by omega
    nlinarith

theorem reverse_bits_succ_high (n : Nat) :
    ∀ x, reverse_bits (n + 1) x = 2 * reverse_bits n (x % 2 ^ n) + x / 2 ^ n % 2 := by
  induction n with
  | zero =>
    intro x
    rw [reverse_bits_succ]
    have h0 : ∀ y, reverse_bits 0 y = 0 := fun y => rfl
    rw [h0, h0]
    omega
  | succ m ih =>
    intro x
    rw [reverse_bits_succ, ih (x / 2), reverse_bits_succ]
    have h1 : x % 2 ^ (m + 1) % 2 = x % 2 := by
      have : (2 : Nat) ∣ 2 ^ (m + 1) := dvd_pow_self 2 (Nat.succ_ne_zero m)
      exact Nat.mod_mod_of_dvd x this
    have h2 : x % 2 ^ (m + 1) / 2 = x / 2 % 2 ^ m := by
      have : (2 : Nat) ^ (m + 1) = 2 * 2 ^ m := by rw [pow_succ]; ring
      rw [this]
      exact Nat.mod_mul_right_div_self x 2 (2 ^ m)
    have h3 : x / 2 ^ (m + 1) = x / 2 / 2 ^ m := by
      rw [Nat.div_div_eq_div_mul]
      congr 1
      rw [pow_succ]; ring
    rw [h1, h2, h3, pow_succ]
    ring

theorem reverse_bits_involution (n : Nat) :
    ∀ x, x < 2 ^ n → reverse_bits n (reverse_bits n x) = x := by
  induction n with
  | zero =>
    intro x hx
    interval_cases x
    rfl
  | succ m ih =>
    intro x hx
    rw [reverse_bits_succ m x, reverse_bits_succ_high m]
    have hb := reverse_bits_lt m (x / 2)
    have hpos : 0 < 2 ^ m := Nat.pos_pow_of_pos m (by norm_num)
    have h1 : (x % 2 * 2 ^ m + reverse_bits m (x / 2)) % 2 ^ m = reverse_bits m (x / 2) := by
      rw [Nat.mul_comm, Nat.mul_add_mod]
      exact Nat.mod_eq_of_lt hb
    have h2 : (x % 2 * 2 ^ m + reverse_bits m (x / 2)) / 2 ^ m = x % 2 := by
      rw [Nat.add_comm, Nat.add_mul_div_right _ _ hpos, Nat.div_eq_of_lt hb]
      omega
    have h3 : x % 2 % 2 = x % 2 := by omega
    have h4 : x / 2 < 2 ^ m := by
      have : (2 : Nat) ^ (m + 1) = 2 ^ m * 2 := by rw [pow_succ]
      omega
    rw [h1, h2, h3, ih (x / 2) h4]
    omega

theorem two_mul_le_two_pow (d : Nat) : 2 * d ≤ 2 ^ d := by
  induction d with
  | zero => norm_num
  | succ m ih =>
    rcases Nat.eq_zero_or_pos m with h | h
    · subst h; norm_num
    · have : (2 : Nat) ≤ 2 ^ m := by
        calc (2 : Nat) = 2 ^ 1 := by norm_num
        _ ≤ 2 ^ m := Nat.pow_le_pow_right (by norm_num) h
      rw [pow_succ]
      omega

theorem ilog2_fuel_bounds :
    ∀ fuel n, 1 ≤ n → n ≤ fuel →
      2 ^ ilog2_fuel fuel n ≤ n ∧ n < 2 ^ (ilog2_fuel fuel n + 1) := by
  intro fuel
  induction fuel with
  | zero => intro n h1 h2; omega
  | succ m ih =>
    intro n h1 h2
    by_cases h : 2 ≤ n
    · have hrec := ih (n / 2) (by omega) (by omega)
      simp only [ilog2_fuel, if_pos h]
      constructor
      · rw [pow_succ]
        omega
      · rw [pow_succ, pow_succ]
        omega
    · have : n = 1 := by omega
      subst this
      simp [ilog2_fuel, h]

theorem ilog2_bounds (n : Nat) (h : 1 ≤ n) :
    2 ^ ilog2 n ≤ n ∧ n < 2 ^ (ilog2 n + 1) :=
  ilog2_fuel_bounds n n h (le_refl n)

/- ------------------------------------------------------------------ -/
/- Structural lemmas about trees and the well-formedness checker.     -/
/- ------------------------------------------------------------------ -/

theorem wadd_assoc (a b c : Nat) : wadd (wadd a b) c = wadd a (wadd b c) := by
  unfold wadd; omega

theorem sum_leaf_weights_mod (t : Tree α) :
    t.sum_leaf_weights % 256 = totalLeafWeight t % 256 := by
  induction t with
  | leaf w a => rfl
  | node w l r ihl ihr =>
    show wadd l.sum_leaf_weights r.sum_leaf_weights % 256 = _
    unfold wadd totalLeafWeight
    omega

theorem wadd_sum_eq (l r : Tree α) :
    wadd l.sum_leaf_weights r.sum_leaf_weights
      = (totalLeafWeight l + totalLeafWeight r) % 256 := by
  have hl := sum_leaf_weights_mod l
  have hr := sum_leaf_weights_mod r
  unfold wadd
  omega

theorem weights_match_node_iff (w : Nat) (l r : Tree α) :
    (node w l r).weights_match = true ↔
      w = (totalLeafWeight l + totalLeafWeight r) % 256
        ∧ l.weights_match = true ∧ r.weights_match = true := by
  show ((w == wadd l.sum_leaf_weights r.sum_leaf_weights)
      && l.weights_match && r.weights_match) = true ↔ _
  rw [Bool.and_eq_true, Bool.and_eq_true, beq_iff_eq, wadd_sum_eq]
  tauto

theorem bounded_node_iff (w : Nat) (l r : Tree α) :
    bounded (node w l r) = true ↔ w < 256 ∧ bounded l = true ∧ bounded r = true := by
  show (decide (w < 256) && bounded l && bounded r) = true ↔ _
  rw [Bool.and_eq_true, Bool.and_eq_true, decide_eq_true_eq]
  tauto

theorem bounded_leaf_iff (w : Nat) (a : α) :
    bounded (leaf w a) = true ↔ w < 256 := by
  show decide (w < 256) = true ↔ _
  rw [decide_eq_true_eq]

theorem tree_count_pos (t : Tree α) : 1 ≤ t.tree_count := by
  induction t with
  | leaf w a => exact le_refl 1
  | node w l r ihl ihr => show 1 ≤ l.tree_count + r.tree_count; omega

theorem tree_count_eq_one_iff (t : Tree α) :
    t.tree_count = 1 ↔ ∃ w a, t = leaf w a := by
  cases t with
  | leaf w a => simp [Tree.tree_count]
  | node w l r =>
    have hl := tree_count_pos l
    have hr := tree_count_pos r
    constructor
    · intro h
      exfalso
      simp only [Tree.tree_count] at h
      omega
    · rintro ⟨w', a', h⟩
      exact absurd h (by simp)

/- ------------------------------------------------------------------ -/
/- Lemmas about `insert`.                                             -/
/- ------------------------------------------------------------------ -/

theorem insert_go_total (wo : Nat) (ao : α) :
    ∀ (p : Nat) (t : Tree α),
      totalLeafWeight (insert_go wo ao p t) = totalLeafWeight t + wo := by
  intro p t
  induction t generalizing p with
  | leaf w a => simp [insert_go, totalLeafWeight]
  | node w l r ihl ihr =>
    by_cases hb : test_bit p 0
    · simp [insert_go, hb, totalLeafWeight, ihr]; ring
    · simp [insert_go, hb, totalLeafWeight, ihl]; ring

theorem insert_go_count (wo : Nat) (ao : α) :
    ∀ (p : Nat) (t : Tree α),
      (insert_go wo ao p t).tree_count = t.tree_count + 1 := by
  intro p t
  induction t generalizing p with
  | leaf w a => rfl
  | node w l r ihl ihr =>
    by_cases hb : test_bit p 0
    · simp [insert_go, hb, Tree.tree_count, ihr]; ring
    · simp [insert_go, hb, Tree.tree_count, ihl]; ring

theorem insert_go_wm (wo : Nat) (ao : α) :
    ∀ (p : Nat) (t : Tree α), t.weights_match = true →
      (insert_go wo ao p t).weights_match = true := by
  intro p t
  induction t generalizing p with
  | leaf w a =>
    intro _
    show (insert_go wo ao p (leaf w a)).weights_match = true
    simp only [insert_go]
    rw [weights_match_node_iff]
    refine ⟨?_, rfl, rfl⟩
    show wadd w wo = (totalLeafWeight (leaf w a) + totalLeafWeight (leaf wo ao)) % 256
    unfold wadd totalLeafWeight
    rfl
  | node w l r ihl ihr =>
    intro hwm
    rw [weights_match_node_iff] at hwm
    obtain ⟨hw, hl, hr⟩ := hwm
    by_cases hb : test_bit p 0
    · simp only [insert_go, hb, if_true]
      rw [weights_match_node_iff]
      refine ⟨?_, hl, ihr _ hr⟩
      rw [insert_go_total, hw]
      unfold wadd
      omega
    · simp only [insert_go, hb, if_false, Bool.false_eq_true]
      rw [weights_match_node_iff]
      refine ⟨?_, ihl _ hl, hr⟩
      rw [insert_go_total, hw]
      unfold wadd
      omega

theorem insert_preserves_wf (u : Urn α) (wo : Nat) (ao : α)
    (h : u.is_wf = true) : (u.insert wo ao).is_wf = true := by
  unfold Urn.is_wf at h ⊢
  rw [Bool.and_eq_true, beq_iff_eq] at h ⊢
  obtain ⟨hc, hm⟩ := h
  constructor
  · show (insert_go wo ao u.size u.tree).tree_count = u.size + 1
    rw [insert_go_count, hc]
  · exact insert_go_wm wo ao u.size u.tree hm

/- ------------------------------------------------------------------ -/
/- Lemmas about `uninsert`.                                           -/
/- ------------------------------------------------------------------ -/

theorem uninsert_go_spec :
    ∀ (t : Tree α) (p : Nat), t.weights_match = true → bounded t = true →
      (uninsert_go p t).1.1 < 256 ∧
      (uninsert_go p t).1.1 ≤ totalLeafWeight t ∧
      ((uninsert_go p t).2.2 = none ↔ ∃ w a, t = leaf w a) ∧
      (∀ t', (uninsert_go p t).2.2 = some t' →
        t'.tree_count + 1 = t.tree_count ∧
        totalLeafWeight t' + (uninsert_go p t).1.1 = totalLeafWeight t ∧
        t'.weights_match = true ∧ bounded t' = true) := by
  intro t
  induction t with
  | leaf w a =>
    intro p _ hbd
    rw [bounded_leaf_iff] at hbd
    refine ⟨hbd, le_refl w, ?_, ?_⟩
    · simp [uninsert_go]
    · intro t' h
      exact absurd h (by simp [uninsert_go])
  | node w l r ihl ihr =>
    intro p hwm hbd
    rw [weights_match_node_iff] at hwm
    rw [bounded_node_iff] at hbd
    obtain ⟨hw, hwml, hwmr⟩ := hwm
    obtain ⟨hwlt, hbdl, hbdr⟩ := hbd
    by_cases hb : test_bit p 0
    · obtain ⟨ih1, ih2, ih3, ih4⟩ := ihr (p >>> 1) hwmr hbdr
      cases hsub : (uninsert_go (p >>> 1) r).2.2 with
      | none =>
        obtain ⟨w', a', rfl⟩ := ih3.mp hsub
        have hval : uninsert_go (p >>> 1) (leaf w' a' : Tree α) = ((w', a'), 0, none) := rfl
        have heq : uninsert_go p (node w l (leaf w' a')) = ((w', a'), 0, some l) := by
          simp [uninsert_go, hb, hval]
        rw [hval] at ih1
        rw [heq]
        refine ⟨ih1, ?_, ?_, ?_⟩
        · show w' ≤ totalLeafWeight l + totalLeafWeight (leaf w' a')
          show w' ≤ totalLeafWeight l + w'
          omega
        · simp
        · intro t' h
          rw [Option.some_inj] at h
          subst h
          refine ⟨rfl, ?_, hwml, hbdl⟩
          show totalLeafWeight l + w' = totalLeafWeight l + totalLeafWeight (leaf w' a')
          rfl
      | some rNew =>
        obtain ⟨ic, it, iw, ib⟩ := ih4 rNew hsub
        have heq : uninsert_go p (node w l r)
            = ((uninsert_go (p >>> 1) r).1, (uninsert_go (p >>> 1) r).2.1,
                some (node (wsub w (uninsert_go (p >>> 1) r).1.1) l rNew)) := by
          simp [uninsert_go, hb, hsub]
        rw [heq]
        refine ⟨ih1, ?_, ?_, ?_⟩
        · show (uninsert_go (p >>> 1) r).1.1 ≤ totalLeafWeight l + totalLeafWeight r
          omega
        · simp
        · intro t' h
          rw [Option.some_inj] at h
          subst h
          refine ⟨?_, ?_, ?_, ?_⟩
          · show (l.tree_count + rNew.tree_count) + 1 = l.tree_count + r.tree_count
            omega
          · show (totalLeafWeight l + totalLeafWeight rNew) + (uninsert_go (p >>> 1) r).1.1
              = totalLeafWeight l + totalLeafWeight r
            omega
          · rw [weights_match_node_iff]
            refine ⟨?_, hwml, iw⟩
            unfold wsub
            omega
          · rw [bounded_node_iff]
            exact ⟨wsub_lt _ _, hbdl, ib⟩
    · obtain ⟨ih1, ih2, ih3, ih4⟩ := ihl (p >>> 1) hwml hbdl
      cases hsub : (uninsert_go (p >>> 1) l).2.2 with
      | none =>
        obtain ⟨w', a', rfl⟩ := ih3.mp hsub
        have hval : uninsert_go (p >>> 1) (leaf w' a' : Tree α) = ((w', a'), 0, none) := rfl
        have heq : uninsert_go p (node w (leaf w' a') r) = ((w', a'), 0, some r) := by
          simp [uninsert_go, hb, hval]
        rw [hval] at ih1
        rw [heq]
        refine ⟨ih1, ?_, ?_, ?_⟩
        · show w' ≤ totalLeafWeight (leaf w' a') + totalLeafWeight r
          show w' ≤ w' + totalLeafWeight r
          omega
        · simp
        · intro t' h
          rw [Option.some_inj] at h
          subst h
          refine ⟨?_, ?_, hwmr, hbdr⟩
          · show r.tree_count + 1 = (leaf w' a' : Tree α).tree_count + r.tree_count
            show r.tree_count + 1 = 1 + r.tree_count
            omega
          · show totalLeafWeight r + w' = totalLeafWeight (leaf w' a') + totalLeafWeight r
            show totalLeafWeight r + w' = w' + totalLeafWeight r
            omega
      | some lNew =>
        obtain ⟨ic, it, iw, ib⟩ := ih4 lNew hsub
        have heq : uninsert_go p (node w l r)
            = ((uninsert_go (p >>> 1) l).1, (uninsert_go (p >>> 1) l).2.1,
                some (node (wsub w (uninsert_go (p >>> 1) l).1.1) lNew r)) := by
          simp [uninsert_go, hb, hsub]
        rw [heq]
        refine ⟨ih1, ?_, ?_, ?_⟩
        · show (uninsert_go (p >>> 1) l).1.1 ≤ totalLeafWeight l + totalLeafWeight r
          omega
        · simp
        · intro t' h
          rw [Option.some_inj] at h
          subst h
          refine ⟨?_, ?_, ?_, ?_⟩
          · show (lNew.tree_count + r.tree_count) + 1 = l.tree_count + r.tree_count
            omega
          · show (totalLeafWeight lNew + totalLeafWeight r) + (uninsert_go (p >>> 1) l).1.1
              = totalLeafWeight l + totalLeafWeight r
            omega
          · rw [weights_match_node_iff]
            refine ⟨?_, iw, hwmr⟩
            unfold wsub
            omega
          · rw [bounded_node_iff]
            exact ⟨wsub_lt _ _, ib, hbdr⟩

/- ------------------------------------------------------------------ -/
/- Lemmas about `replace_index` and `update_index`.                   -/
/- ------------------------------------------------------------------ -/

theorem replace_index_spec :
    ∀ (t : Tree α) (wo : Nat) (ao : α) (i : Nat),
      t.weights_match = true → bounded t = true →
      (t.replace_index wo ao i).1.1 < 256 ∧
      (t.replace_index wo ao i).1.1 ≤ totalLeafWeight t ∧
      (t.replace_index wo ao i).2.tree_count = t.tree_count ∧
      totalLeafWeight (t.replace_index wo ao i).2 + (t.replace_index wo ao i).1.1
        = totalLeafWeight t + wo ∧
      (t.replace_index wo ao i).2.weights_match = true ∧
      (wo < 256 → bounded (t.replace_index wo ao i).2 = true) := by
  intro t
  induction t with
  | leaf w a =>
    intro wo ao i _ hbd
    rw [bounded_leaf_iff] at hbd
    have heq : (leaf w a : Tree α).replace_index wo ao i = ((w, a), leaf wo ao) := rfl
    rw [heq]
    refine ⟨hbd, le_refl w, rfl, ?_, rfl, ?_⟩
    · show wo + w = w + wo
      omega
    · intro hwo
      rw [bounded_leaf_iff]
      exact hwo
  | node w l r ihl ihr =>
    intro wo ao i hwm hbd
    rw [weights_match_node_iff] at hwm
    rw [bounded_node_iff] at hbd
    obtain ⟨hw, hwml, hwmr⟩ := hwm
    obtain ⟨hwlt, hbdl, hbdr⟩ := hbd
    by_cases hi : i < l.weight
    · obtain ⟨ih1, ih2, ih3, ih4, ih5, ih6⟩ := ihl wo ao i hwml hbdl
      have heq : (node w l r : Tree α).replace_index wo ao i
          = ((l.replace_index wo ao i).1,
              node (wadd (wsub w (l.replace_index wo ao i).1.1) wo)
                (l.replace_index wo ao i).2 r) := by
        simp [Tree.replace_index, hi]
      rw [heq]
      refine ⟨ih1, ?_, ?_, ?_, ?_, ?_⟩
      · show (l.replace_index wo ao i).1.1 ≤ totalLeafWeight l + totalLeafWeight r
        omega
      · show (l.replace_index wo ao i).2.tree_count + r.tree_count
          = l.tree_count + r.tree_count
        omega
      · show (totalLeafWeight (l.replace_index wo ao i).2 + totalLeafWeight r)
            + (l.replace_index wo ao i).1.1 = (totalLeafWeight l + totalLeafWeight r) + wo
        omega
      · rw [weights_match_node_iff]
        refine ⟨?_, ih5, hwmr⟩
        unfold wadd wsub
        omega
      · intro hwo
        rw [bounded_node_iff]
        exact ⟨wadd_lt _ _, ih6 hwo, hbdr⟩
    · obtain ⟨ih1, ih2, ih3, ih4, ih5, ih6⟩ := ihr wo ao (i - l.weight) hwmr hbdr
      have heq : (node w l r : Tree α).replace_index wo ao i
          = ((r.replace_index wo ao (i - l.weight)).1,
              node (wadd (wsub w (r.replace_index wo ao (i - l.weight)).1.1) wo)
                l (r.replace_index wo ao (i - l.weight)).2) := by
        simp [Tree.replace_index, hi]
      rw [heq]
      refine ⟨ih1, ?_, ?_, ?_, ?_, ?_⟩
      · show (r.replace_index wo ao (i - l.weight)).1.1
          ≤ totalLeafWeight l + totalLeafWeight r
        omega
      · show l.tree_count + (r.replace_index wo ao (i - l.weight)).2.tree_count
          = l.tree_count + r.tree_count
        omega
      · show (totalLeafWeight l + totalLeafWeight (r.replace_index wo ao (i - l.weight)).2)
            + (r.replace_index wo ao (i - l.weight)).1.1
          = (totalLeafWeight l + totalLeafWeight r) + wo
        omega
      · rw [weights_match_node_iff]
        refine ⟨?_, hwml, ih5⟩
        unfold wadd wsub
        omega
      · intro hwo
        rw [bounded_node_iff]
        exact ⟨wadd_lt _ _, hbdl, ih6 hwo⟩

theorem update_index_spec :
    ∀ (t : Tree α) (f : Nat → α → Nat × α) (i : Nat),
      t.weights_match = true → bounded t = true →
      (t.update_index f i).1.1 < 256 ∧
      (t.update_index f i).1.1 ≤ totalLeafWeight t ∧
      (t.update_index f i).2.2.tree_count = t.tree_count ∧
      totalLeafWeight (t.update_index f i).2.2 + (t.update_index f i).1.1
        = totalLeafWeight t + (t.update_index f i).2.1.1 ∧
      (t.update_index f i).2.2.weights_match = true := by
  intro t
  induction t with
  | leaf w a =>
    intro f i _ hbd
    rw [bounded_leaf_iff] at hbd
    have heq : (leaf w a : Tree α).update_index f i
        = ((w, a), f w a, leaf (f w a).1 (f w a).2) := rfl
    rw [heq]
    refine ⟨hbd, le_refl w, rfl, ?_, rfl⟩
    show (f w a).1 + w = w + (f w a).1
    omega
  | node w l r ihl ihr =>
    intro f i hwm hbd
    rw [weights_match_node_iff] at hwm
    rw [bounded_node_iff] at hbd
    obtain ⟨hw, hwml, hwmr⟩ := hwm
    obtain ⟨hwlt, hbdl, hbdr⟩ := hbd
    by_cases hi : i < l.weight
    · obtain ⟨ih1, ih2, ih3, ih4, ih5⟩ := ihl f i hwml hbdl
      have heq : (node w l r : Tree α).update_index f i
          = ((l.update_index f i).1, (l.update_index f i).2.1,
              node (wadd (wsub w (l.update_index f i).1.1) (l.update_index f i).2.1.1)
                (l.update_index f i).2.2 r) := by
        simp [Tree.update_index, hi]
      rw [heq]
      refine ⟨ih1, ?_, ?_, ?_, ?_⟩
      · show (l.update_index f i).1.1 ≤ totalLeafWeight l + totalLeafWeight r
        omega
      · show (l.update_index f i).2.2.tree_count + r.tree_count
          = l.tree_count + r.tree_count
        omega
      · show (totalLeafWeight (l.update_index f i).2.2 + totalLeafWeight r)
            + (l.update_index f i).1.1
          = (totalLeafWeight l + totalLeafWeight r) + (l.update_index f i).2.1.1
        omega
      · rw [weights_match_node_iff]
        refine ⟨?_, ih5, hwmr⟩
        unfold wadd wsub
        omega
    · obtain ⟨ih1, ih2, ih3, ih4, ih5⟩ := ihr f (i - l.weight) hwmr hbdr
      have heq : (node w l r : Tree α).update_index f i
          = ((r.update_index f (i - l.weight)).1, (r.update_index f (i - l.weight)).2.1,
              node (wadd (wsub w (r.update_index f (i - l.weight)).1.1)
                  (r.update_index f (i - l.weight)).2.1.1)
                l (r.update_index f (i - l.weight)).2.2) := by
        simp [Tree.update_index, hi]
      rw [heq]
      refine ⟨ih1, ?_, ?_, ?_, ?_⟩
      · show (r.update_index f (i - l.weight)).1.1
          ≤ totalLeafWeight l + totalLeafWeight r
        omega
      · show l.tree_count + (r.update_index f (i - l.weight)).2.2.tree_count
          = l.tree_count + r.tree_count
        omega
      · show (totalLeafWeight l + totalLeafWeight (r.update_index f (i - l.weight)).2.2)
            + (r.update_index f (i - l.weight)).1.1
          = (totalLeafWeight l + totalLeafWeight r)
            + (r.update_index f (i - l.weight)).2.1.1
        omega
      · rw [weights_match_node_iff]
        refine ⟨?_, hwml, ih5⟩
        unfold wadd wsub
        omega

/- ------------------------------------------------------------------ -/
/- Urn-level consequences.                                            -/
/- ------------------------------------------------------------------ -/

theorem is_wf_parts (u : Urn α) (h : u.is_wf = true) :
    u.tree.tree_count = u.size ∧ u.tree.weights_match = true := by
  unfold Urn.is_wf at h
  rw [Bool.and_eq_true, beq_iff_eq] at h
  exact h

theorem uninsert_go_none_iff (p : Nat) (t : Tree α) :
    (uninsert_go p t).2.2 = none ↔ ∃ w a, t = leaf w a := by
  cases t with
  | leaf w a => simp [uninsert_go]
  | node w l r =>
    by_cases hb : test_bit p 0 <;> simp [uninsert_go, hb]

theorem uninsert_some_size (u : Urn α) (u' : Urn α)
    (h : (u.uninsert).2.2 = some u') : u'.size = u.size - 1 := by
  unfold Urn.uninsert at h
  simp only [Option.map_eq_some'] at h
  obtain ⟨t', _, ht⟩ := h
  rw [← ht]

theorem uninsert_preserves_wf (u : Urn α) (h : u.is_wf = true)
    (hb : bounded u.tree = true) :
    ∀ u', (u.uninsert).2.2 = some u' →
      u'.is_wf = true ∧ bounded u'.tree = true ∧
      (u.uninsert).1.1 < 256 ∧
      totalLeafWeight u'.tree + (u.uninsert).1.1 = totalLeafWeight u.tree := by
  intro u' hsome
  obtain ⟨hc, hm⟩ := is_wf_parts u h
  obtain ⟨s1, s2, s3, s4⟩ := uninsert_go_spec u.tree (u.size - 1) hm hb
  unfold Urn.uninsert at hsome ⊢
  simp only [Option.map_eq_some'] at hsome
  obtain ⟨t', hgo, ht⟩ := hsome
  obtain ⟨g1, g2, g3, g4⟩ := s4 t' hgo
  have hsz : u'.size = u.size - 1 := by rw [← ht]
  have htree : u'.tree = t' := by rw [← ht]
  refine ⟨?_, ?_, s1, ?_⟩
  · unfold Urn.is_wf
    rw [Bool.and_eq_true, beq_iff_eq, htree, hsz]
    constructor
    · omega
    · exact g3
  · rw [htree]; exact g4
  · rw [htree]; exact g2

theorem replace_preserves_wf (u : Urn α) (wo : Nat) (ao : α) (i : Nat)
    (h : u.is_wf = true) (hb : bounded u.tree = true) :
    (u.replace_index wo ao i).2.is_wf = true := by
  obtain ⟨hc, hm⟩ := is_wf_parts u h
  obtain ⟨s1, s2, s3, s4, s5, s6⟩ := replace_index_spec u.tree wo ao i hm hb
  unfold Urn.replace_index Urn.is_wf
  rw [Bool.and_eq_true, beq_iff_eq]
  exact ⟨by rw [s3, hc], s5⟩

theorem replace_preserves_bounded (u : Urn α) (wo : Nat) (ao : α) (i : Nat)
    (h : u.is_wf = true) (hb : bounded u.tree = true) (hwo : wo < 256) :
    bounded (u.replace_index wo ao i).2.tree = true := by
  obtain ⟨hc, hm⟩ := is_wf_parts u h
  obtain ⟨s1, s2, s3, s4, s5, s6⟩ := replace_index_spec u.tree wo ao i hm hb
  exact s6 hwo

theorem update_preserves_wf (u : Urn α) (f : Nat → α → Nat × α) (i : Nat)
    (h : u.is_wf = true) (hb : bounded u.tree = true) :
    (u.update_index f i).2.2.is_wf = true := by
  obtain ⟨hc, hm⟩ := is_wf_parts u h
  obtain ⟨s1, s2, s3, s4, s5⟩ := update_index_spec u.tree f i hm hb
  unfold Urn.update_index Urn.is_wf
  rw [Bool.and_eq_true, beq_iff_eq]
  exact ⟨by rw [s3, hc], s5⟩

theorem remove_preserves_wf (u : Urn α) (i : Nat)
    (h : u.is_wf = true) (hb : bounded u.tree = true) :
    ∀ u', (u.remove_index i).2 = some u' → u'.is_wf = true := by
  intro u' hsome
  cases hc : (u.uninsert).2.2 with
  | none => simp [Urn.remove_index, hc] at hsome
  | some newUrn =>
    obtain ⟨nwf, nbd, nw, _⟩ := uninsert_preserves_wf u h hb newUrn hc
    simp only [Urn.remove_index, hc] at hsome
    split_ifs at hsome with h1 h2 <;> simp at hsome <;> rw [← hsome]
    · exact replace_preserves_wf newUrn _ _ _ nwf nbd
    · exact nwf
    · exact replace_preserves_wf newUrn _ _ _ nwf nbd

/- ------------------------------------------------------------------ -/
/- Lemmas about `almost_perfect` and `from_list`.                     -/
/- ------------------------------------------------------------------ -/

theorem reverse_bits_filter_card (n r' : Nat) :
    ((Finset.range (2 ^ n)).filter (fun p => reverse_bits n p < r')).card
      = min r' (2 ^ n) := by
  have hcard : (Finset.range (min r' (2 ^ n))).card = min r' (2 ^ n) :=
    Finset.card_range _
  rw [← hcard]
  apply Finset.card_nbij' (fun p => reverse_bits n p) (fun q => reverse_bits n q)
  · intro a ha
    rw [Finset.mem_filter, Finset.mem_range] at ha
    rw [Finset.mem_range]
    exact lt_min ha.2 (reverse_bits_lt n a)
  · intro q hq
    rw [Finset.mem_range, lt_min_iff] at hq
    rw [Finset.mem_filter, Finset.mem_range]
    exact ⟨reverse_bits_lt n q, by rw [reverse_bits_involution n q hq.2]; exact hq.1⟩
  · intro a ha
    rw [Finset.mem_filter, Finset.mem_range] at ha
    exact reverse_bits_involution n a ha.1
  · intro q hq
    rw [Finset.mem_range, lt_min_iff] at hq
    exact reverse_bits_involution n q hq.2

theorem ap_go_spec (og pd rem : Nat) :
    ∀ (d idx : Nat) (elems : List (Nat × α)) (t : Tree α)
      (rest : List (Nat × α)) (idx' : Nat),
      ap_go og pd rem d idx elems = some (t, rest, idx') →
      idx' = idx + 2 ^ d ∧
      (∃ k, k ≤ elems.length ∧ rest = elems.drop k ∧
        k = 2 ^ d + ((Finset.Ico idx (idx + 2 ^ d)).filter
            (fun p => reverse_bits pd p < rem)).card ∧
        t.tree_count = k) ∧
      t.weights_match = true ∧
      t.weight % 256 = totalLeafWeight t % 256 := by
  intro d
  induction d with
  | zero =>
    intro idx elems t rest idx' h
    by_cases hrev : reverse_bits pd idx < rem
    · simp only [ap_go, if_pos hrev] at h
      rcases elems with _ | ⟨⟨wl, tl⟩, rest1⟩
      · exact absurd h (by simp)
      rcases rest1 with _ | ⟨⟨wr, tr⟩, tail⟩
      · exact absurd h (by simp)
      simp only [Option.some_inj, Prod.mk.injEq] at h
      obtain ⟨h1, h2, h3⟩ := h
      subst h1
      subst h2
      subst h3
      refine ⟨by omega, ⟨2, ?_, rfl, ?_, rfl⟩, ?_, ?_⟩
      · simp only [List.length_cons]
        omega
      · rw [pow_zero, Nat.Ico_succ_singleton, Finset.filter_singleton, if_pos hrev]
        simp
      · rw [show ap_node (leaf wl tl : Tree α) (leaf wr tr) =
            node (wadd wl wr) (leaf wl tl) (leaf wr tr) from rfl,
          weights_match_node_iff]
        exact ⟨rfl, rfl, rfl⟩
      · show wadd wl wr % 256 = (wl + wr) % 256
        unfold wadd
        omega
    · simp only [ap_go, if_neg hrev] at h
      rcases elems with _ | ⟨⟨w, x⟩, tail⟩
      · exact absurd h (by simp)
      simp only [Option.some_inj, Prod.mk.injEq] at h
      obtain ⟨h1, h2, h3⟩ := h
      subst h1
      subst h2
      subst h3
      refine ⟨by omega, ⟨1, ?_, rfl, ?_, rfl⟩, rfl, rfl⟩
      · simp only [List.length_cons]
        omega
      · rw [pow_zero, Nat.Ico_succ_singleton, Finset.filter_singleton, if_neg hrev]
        simp
  | succ d ih =>
    intro idx elems t rest idx' h
    simp only [ap_go] at h
    cases hl : ap_go og pd rem d idx elems with
    | none => simp only [hl] at h; exact absurd h (by simp)
    | some resL =>
      obtain ⟨l, lElems, lIndex⟩ := resL
      simp only [hl] at h
      cases hr : ap_go og pd rem d lIndex lElems with
      | none => simp only [hr] at h; exact absurd h (by simp)
      | some resR =>
        obtain ⟨r, rElems, rIndex⟩ := resR
        simp only [hr] at h
        simp only [Option.some_inj, Prod.mk.injEq] at h
        obtain ⟨h1, h2, h3⟩ := h
        subst h1
        subst h2
        subst h3
        obtain ⟨hidxL, ⟨kL, hkL1, hkL2, hkL3, hkL4⟩, hwmL, hwL⟩ :=
          ih idx elems l lElems lIndex hl
        obtain ⟨hidxR, ⟨kR, hkR1, hkR2, hkR3, hkR4⟩, hwmR, hwR⟩ :=
          ih lIndex lElems r rElems rIndex hr
        have hpow : (2 : Nat) ^ (d + 1) = 2 ^ d + 2 ^ d := by rw [pow_succ]; ring
        have hsplit :
            ((Finset.Ico idx (idx + 2 ^ (d + 1))).filter
                (fun p => reverse_bits pd p < rem)).card
              = ((Finset.Ico idx (idx + 2 ^ d)).filter
                  (fun p => reverse_bits pd p < rem)).card
                + ((Finset.Ico (idx + 2 ^ d) (idx + 2 ^ d + 2 ^ d)).filter
                  (fun p => reverse_bits pd p < rem)).card := by
          have hu : Finset.Ico idx (idx + 2 ^ d) ∪
              Finset.Ico (idx + 2 ^ d) (idx + 2 ^ d + 2 ^ d)
              = Finset.Ico idx (idx + 2 ^ (d + 1)) := by
            rw [Finset.Ico_union_Ico_eq_Ico
              (Nat.le_add_right idx (2 ^ d))
              (Nat.le_add_right (idx + 2 ^ d) (2 ^ d))]
            congr 1
            omega
          rw [← hu, Finset.filter_union]
          exact Finset.card_union_of_disjoint
            (Finset.disjoint_filter_filter
              (Finset.Ico_disjoint_Ico_consecutive idx (idx + 2 ^ d) (idx + 2 ^ d + 2 ^ d)))
        subst hidxL
        have hlen : lElems.length = elems.length - kL := by
          rw [hkL2, List.length_drop]
        refine ⟨by omega, ⟨kL + kR, by omega, ?_, ?_, ?_⟩, ?_, ?_⟩
        · rw [hkR2, hkL2, List.drop_drop]
        · rw [hsplit]
          omega
        · show l.tree_count + r.tree_count = kL + kR
          omega
        · rw [show ap_node l r = node (wadd l.weight r.weight) l r from rfl,
            weights_match_node_iff]
          refine ⟨?_, hwmL, hwmR⟩
          unfold wadd
          omega
        · show wadd l.weight r.weight % 256
            = (totalLeafWeight l + totalLeafWeight r) % 256
          unfold wadd
          omega

theorem from_list_wf (elems : List (Nat × α)) (u : Urn α)
    (h : from_list elems = some (some u)) : u.is_wf = true := by
  by_cases he : elems.isEmpty
  · unfold from_list at h
    rw [if_pos he] at h
    simp at h
  · unfold from_list at h
    rw [if_neg he] at h
    have hne : 1 ≤ elems.length := by
      cases elems with
      | nil => simp at he
      | cons a l =>
        simp only [List.length_cons]
        omega
    rw [Option.map_eq_some'] at h
    obtain ⟨t, hap, hu⟩ := h
    simp only [Option.some_inj] at hu
    simp only [almost_perfect] at hap
    rw [Option.map_eq_some'] at hap
    obtain ⟨res, hgo, hres⟩ := hap
    obtain ⟨t0, rest, idx'⟩ := res
    have ht : t0 = t := hres
    subst ht
    obtain ⟨hidx, ⟨k, hk1, hk2, hk3, hk4⟩, hwm, hw⟩ :=
      ap_go_spec elems.length (ilog2 elems.length)
        (elems.length - (ilog2 elems.length <<< 1)) (ilog2 elems.length) 0 elems
        t0 rest idx' hgo
    have hshift : (ilog2 elems.length) <<< 1 = 2 * ilog2 elems.length := by
      rw [Nat.shiftLeft_eq]
      ring
    obtain ⟨hl2, hr2⟩ := ilog2_bounds elems.length hne
    have h2d := two_mul_le_two_pow (ilog2 elems.length)
    have hpow : (2 : Nat) ^ (ilog2 elems.length + 1)
        = 2 ^ ilog2 elems.length + 2 ^ ilog2 elems.length := by
      rw [pow_succ]
      ring
    have hcard : ((Finset.Ico 0 (0 + 2 ^ ilog2 elems.length)).filter
        (fun p => reverse_bits (ilog2 elems.length) p
          < elems.length - (ilog2 elems.length <<< 1))).card
        = min (elems.length - (ilog2 elems.length <<< 1)) (2 ^ ilog2 elems.length) := by
      rw [Nat.zero_add, ← Finset.range_eq_Ico]
      exact reverse_bits_filter_card _ _
    rw [hcard, hshift] at hk3
    have hkn : k = elems.length := by omega
    rw [← hu]
    unfold Urn.is_wf
    rw [Bool.and_eq_true, beq_iff_eq]
    exact ⟨by rw [hk4, hkn], hwm⟩

/- ------------------------------------------------------------------ -/
/- The insert/uninsert inverse law on path-consistent trees.          -/
/- ------------------------------------------------------------------ -/

theorem insert_uninsert_go (wo : Nat) (ao : α) :
    ∀ (t : Tree α) (p : Nat), bounded t = true → insert_path_ok p t = true →
      uninsert_go p (insert_go wo ao p t) = ((wo, ao), 0, some t) := by
  intro t
  induction t with
  | leaf w a =>
    intro p _ hp
    have hodd : p % 2 = 1 := by
      have : (p % 2 == 1) = true := hp
      rwa [beq_iff_eq] at this
    have htb : test_bit p 0 = true := by
      rw [test_bit_zero_eq, decide_eq_true_eq]
      exact hodd
    have hins : insert_go wo ao p (leaf w a)
        = node (wadd w wo) (leaf w a) (leaf wo ao) := rfl
    rw [hins]
    simp [uninsert_go, htb]
  | node w l r ihl ihr =>
    intro p hb hp
    rw [bounded_node_iff] at hb
    obtain ⟨hw, hbl, hbr⟩ := hb
    have hwW : wsub (wadd w wo) wo = w := by
      unfold wadd wsub
      omega
    by_cases htb : test_bit p 0
    · have hp' : insert_path_ok (p >>> 1) r = true := by
        have : insert_path_ok p (node w l r)
            = insert_path_ok (p >>> 1) r := by simp [insert_path_ok, htb]
        rwa [this] at hp
      have ih := ihr (p >>> 1) hbr hp'
      have hins : insert_go wo ao p (node w l r)
          = node (wadd w wo) l (insert_go wo ao (p >>> 1) r) := by
        simp [insert_go, htb]
      rw [hins]
      have hun : uninsert_go p (node (wadd w wo) l (insert_go wo ao (p >>> 1) r))
          = ((wo, ao), 0, some (node (wsub (wadd w wo) wo) l r)) := by
        simp [uninsert_go, htb, ih]
      rw [hun, hwW]
    · have hp' : insert_path_ok (p >>> 1) l = true := by
        have : insert_path_ok p (node w l r)
            = insert_path_ok (p >>> 1) l := by simp [insert_path_ok, htb]
        rwa [this] at hp
      have ih := ihl (p >>> 1) hbl hp'
      have hins : insert_go wo ao p (node w l r)
          = node (wadd w wo) (insert_go wo ao (p >>> 1) l) r := by
        simp [insert_go, htb]
      rw [hins]
      have hun : uninsert_go p (node (wadd w wo) (insert_go wo ao (p >>> 1) l) r)
          = ((wo, ao), 0, some (node (wsub (wadd w wo) wo) l r)) := by
        simp [uninsert_go, htb, ih]
      rw [hun, hwW]

theorem insert_uninsert_urn (u : Urn α) (wo : Nat) (ao : α)
    (hb : bounded u.tree = true) (hp : insert_path_ok u.size u.tree = true) :
    (u.insert wo ao).uninsert = ((wo, ao), 0, some u) := by
  obtain ⟨sz, tr⟩ := u
  show (Urn.uninsert ⟨sz + 1, insert_go wo ao sz tr⟩) = ((wo, ao), 0, some ⟨sz, tr⟩)
  unfold Urn.uninsert
  have hsz : sz + 1 - 1 = sz := by omega
  simp only [hsz]
  rw [insert_uninsert_go wo ao tr sz hb hp]
  rfl

/- ------------------------------------------------------------------ -/
/- Sampling past the total weight.                                    -/
/- ------------------------------------------------------------------ -/

theorem exact_weights_node_iff (w : Nat) (l r : Tree α) :
    exact_weights (node w l r) = true ↔
      w = totalLeafWeight l + totalLeafWeight r
        ∧ exact_weights l = true ∧ exact_weights r = true := by
  show ((w == totalLeafWeight l + totalLeafWeight r)
      && exact_weights l && exact_weights r) = true ↔ _
  rw [Bool.and_eq_true, Bool.and_eq_true, beq_iff_eq]
  tauto

theorem exact_weight_eq_total (t : Tree α) (h : exact_weights t = true) :
    t.weight = totalLeafWeight t := by
  induction t with
  | leaf w a => rfl
  | node w l r ihl ihr =>
    rw [exact_weights_node_iff] at h
    exact h.1

theorem sample_index_ge_weight (t : Tree α) (h : exact_weights t = true) :
    ∀ i, t.weight ≤ i → t.sample_index i = rightmost_value t := by
  induction t with
  | leaf w a => intro i _; rfl
  | node w l r ihl ihr =>
    intro i hi
    rw [exact_weights_node_iff] at h
    obtain ⟨hw, hel, her⟩ := h
    have hwl : l.weight = totalLeafWeight l := exact_weight_eq_total l hel
    have hwr : r.weight = totalLeafWeight r := exact_weight_eq_total r her
    have hwt : (node w l r : Tree α).weight = w := rfl
    rw [hwt] at hi
    have hnl : ¬ (i < l.weight) := by omega
    have hstep : (node w l r : Tree α).sample_index i
        = r.sample_index (i - l.weight) := by
      simp [Tree.sample_index, hnl]
    rw [hstep]
    have : r.weight ≤ i - l.weight := by omega
    rw [ihr her _ this]
    rfl

/- ------------------------------------------------------------------ -/
/- Size bookkeeping for `uninsert` and `remove_index`.                -/
/- ------------------------------------------------------------------ -/

theorem uninsert_none_iff (u : Urn α) (h : u.is_wf = true) :
    (u.uninsert).2.2 = none ↔ u.size = 1 := by
  obtain ⟨hc, _⟩ := is_wf_parts u h
  unfold Urn.uninsert
  simp only [Option.map_eq_none']
  rw [uninsert_go_none_iff]
  constructor
  · rintro ⟨w, a, hleaf⟩
    rw [← hc, hleaf]
    rfl
  · intro hs
    rw [hs] at hc
    exact (tree_count_eq_one_iff u.tree).mp hc

theorem remove_none_iff (u : Urn α) (i : Nat) :
    (u.remove_index i).2 = none ↔ (u.uninsert).2.2 = none := by
  cases hc : (u.uninsert).2.2 with
  | none => simp [Urn.remove_index, hc]
  | some u0 =>
    simp only [Urn.remove_index, hc]
    split_ifs <;> simp

theorem remove_some_cases (u : Urn α) (i : Nat) (u' : Urn α)
    (h : (u.remove_index i).2 = some u') :
    ∃ u0, (u.uninsert).2.2 = some u0 ∧ u'.size = u0.size := by
  cases hc : (u.uninsert).2.2 with
  | none => simp [Urn.remove_index, hc] at h
  | some u0 =>
    refine ⟨u0, rfl, ?_⟩
    simp only [Urn.remove_index, hc] at h
    split_ifs at h with h1 h2
    · simp at h
      rw [← h]
      rfl
    · simp at h
      rw [← h]
    · simp at h
      rw [← h]
      rfl

theorem wf_size_pos (u : Urn α) (h : u.is_wf = true) : 1 ≤ u.size := by
  obtain ⟨hc, _⟩ := is_wf_parts u h
  have := tree_count_pos u.tree
  omega

/- ================================================================== -/
/- Claim theorems.                                                    -/
/- ================================================================== -/

/-- C1 (the code violates the claim): on the well-formed two-element urn
`{size 2, Node(8, Leaf(5,x), Leaf(3,y))}` the index 0 lies in the bucket
of `x` (indeed `sample_index` at 0 yields `x`), yet `remove_index` at 0
returns the pair `(3, y)` — because `uninsert` always reports lower
bound 0, the three-way split of `remove_index` misclassifies the index. -/
theorem remove_index_misses_bucket_at_zero :
    (Urn.is_wf ⟨2, node 8 (leaf 5 'x') (leaf 3 'y')⟩) = true ∧
    Tree.sample_index (node 8 (leaf 5 'x') (leaf 3 'y')) 0 = 'x' ∧
    Urn.remove_index ⟨2, node 8 (leaf 5 'x') (leaf 3 'y')⟩ 0
      = ((3, 'y'), some ⟨1, leaf 5 'x'⟩) := by decide

/-- C2 (the code violates the claim): `uninsert` on the urn
`{size 2, Node(8, Leaf(5,x), Leaf(3,y))}` removes the right leaf `(3,y)`
whose bucket starts at 5 (the total weight of the leaves strictly to its
left is 5), but reports lower bound 0: the `Node` branches of the helper
return the recursive `lb` without ever adding the left sibling weight. -/
theorem uninsert_returns_zero_lower_bound :
    Urn.uninsert ⟨2, node 8 (leaf 5 'x') (leaf 3 'y')⟩
      = ((3, 'y'), 0, some ⟨1, leaf 5 'x'⟩) ∧
    totalLeafWeight (leaf 5 'x') = 5 := by decide

/-- C3 (the code violates the claim): on the non-empty input `[(1,a)]`
`from_list_naive` returns the singleton urn but `from_list` hits the
input-exhausted contract-violation branch of `almost_perfect` (modelled
as `none`), so the two constructors are not equivalent on all non-empty
inputs. -/
theorem from_list_vs_naive_on_one_element :
    from_list_naive [(1, 'a')] = some (singleton 1 'a') ∧
    from_list [(1, 'a')] = none := by decide

/-- C4 (the code violates the claim): for the eight-element input of the
repository's own `from_list_equiv_big` unit test, the code computes
`remainder = 8 - (perfect_depth << 1) = 8 - 2*3 = 2` instead of the
claimed `8 - 2^3 = 0`, decides that two depth-0 slots must consume two
elements each (10 > 8 inputs), and fails with input exhausted instead of
consuming exactly n elements. -/
theorem from_list_fails_on_eight_elements :
    from_list [(1,'a'),(2,'b'),(3,'c'),(4,'d'),(5,'e'),(6,'f'),(7,'g'),(8,'h')]
      = none ∧
    8 - (ilog2 8 <<< 1) = 2 ∧
    8 - 2 ^ ilog2 8 = 0 := by decide

/-- C5 counterexample: the well-formed, u8-bounded urn
`{size 3, Node(6, Leaf(1,x), Node(5, Leaf(2,y), Leaf(3,z)))}` does not
satisfy the inverse law: `uninsert (insert u 4 w)` removes `(3, z)`
rather than the just-inserted `(4, w)` (the bit path of the new size
leads to the old leaf `z`, not to the new one). -/
theorem insert_uninsert_fails_on_right_leaning_urn :
    (Urn.is_wf ⟨3, node 6 (leaf 1 'x') (node 5 (leaf 2 'y') (leaf 3 'z'))⟩) = true ∧
    bounded (node 6 (leaf 1 'x') (node 5 (leaf 2 'y') (leaf 3 'z'))) = true ∧
    ((Urn.insert ⟨3, node 6 (leaf 1 'x') (node 5 (leaf 2 'y') (leaf 3 'z'))⟩ 4 'w').uninsert).1
      ≠ (4, 'w') := by decide

/-- C5 (amended): for every well-formed urn whose tree is u8-bounded and
insert-path consistent with its size (the bit path of `size` through the
tree ends at a leaf with the remaining path odd — true of every urn the
library itself constructs), `uninsert (insert u w a)` returns exactly
`((w, a), 0, some u)`. -/
theorem insert_uninsert_inverse_on_path_consistent_urns (u : Urn α)
    (wo : Nat) (ao : α) (hwf : u.is_wf = true) (hb : bounded u.tree = true)
    (hp : insert_path_ok u.size u.tree = true) :
    (u.insert wo ao).uninsert = ((wo, ao), 0, some u) :=
  insert_uninsert_urn u wo ao hb hp

/-- Witness for the amended C5 at a concrete urn. -/
theorem insert_uninsert_inverse_witness :
    ((singleton 5 'x').insert 3 'y').uninsert = ((3, 'y'), 0, some (singleton 5 'x')) :=
  insert_uninsert_inverse_on_path_consistent_urns (singleton 5 'x') 3 'y'
    (by decide) (by decide) (by decide)

/-- C6: every urn produced by `singleton`, `from_list`, `insert`,
`uninsert`, `replace`, `remove` or `update` from a well-formed input
passes the repository's own `is_wf` check (I1 with the checker's u8
wrapping sums, and I2).  For the operations that subtract weights the
input tree is additionally assumed u8-bounded, which holds by typing in
the source.  The randomized `replace` / `remove` / `update` delegate to
the index-based operations quantified over every index `i` here. -/
theorem operations_preserve_well_formedness {α : Type} :
    (∀ (w : Nat) (a : α), (singleton w a).is_wf = true) ∧
    (∀ (elems : List (Nat × α)) (u : Urn α),
      from_list elems = some (some u) → u.is_wf = true) ∧
    (∀ (u : Urn α) (w : Nat) (a : α), u.is_wf = true → (u.insert w a).is_wf = true) ∧
    (∀ (u u' : Urn α), u.is_wf = true → bounded u.tree = true →
      (u.uninsert).2.2 = some u' → u'.is_wf = true) ∧
    (∀ (u : Urn α) (w : Nat) (a : α) (i : Nat), u.is_wf = true →
      bounded u.tree = true → (u.replace_index w a i).2.is_wf = true) ∧
    (∀ (u u' : Urn α) (i : Nat), u.is_wf = true → bounded u.tree = true →
      (u.remove_index i).2 = some u' → u'.is_wf = true) ∧
    (∀ (u : Urn α) (f : Nat → α → Nat × α) (i : Nat), u.is_wf = true →
      bounded u.tree = true → (u.update_index f i).2.2.is_wf = true) := by
  refine ⟨?_, ?_, ?_, ?_, ?_, ?_, ?_⟩
  · intro w a
    rfl
  · intro elems u h
    exact from_list_wf elems u h
  · intro u w a h
    exact insert_preserves_wf u w a h
  · intro u u' h hb hs
    exact (uninsert_preserves_wf u h hb u' hs).1
  · intro u w a i h hb
    exact replace_preserves_wf u w a i h hb
  · intro u u' i h hb hs
    exact remove_preserves_wf u i h hb u' hs
  · intro u f i h hb
    exact update_preserves_wf u f i h hb

/-- Witness for C6 at concrete inputs (each hypothesis discharged by
evaluation). -/
theorem operations_preserve_well_formedness_witness :
    Urn.is_wf (singleton 1 'a') = true ∧
    Urn.is_wf ⟨2, node 3 (leaf 1 'a') (leaf 2 'b')⟩ = true ∧
    Urn.is_wf ((⟨2, node 3 (leaf 1 'a') (leaf 2 'b')⟩ : Urn Char).insert 5 'c') = true ∧
    Urn.is_wf (⟨1, leaf 1 'a'⟩ : Urn Char) = true ∧
    Urn.is_wf ((⟨2, node 3 (leaf 1 'a') (leaf 2 'b')⟩ : Urn Char).replace_index 7 'd' 1).2 = true ∧
    Urn.is_wf ((⟨2, node 3 (leaf 1 'a') (leaf 2 'b')⟩ : Urn Char).update_index
      (fun w a => (w + 1, a)) 0).2.2 = true := by
  refine ⟨operations_preserve_well_formedness.1 1 'a',
    operations_preserve_well_formedness.2.1 [(1, 'a'), (2, 'b')] _ (by decide),
    operations_preserve_well_formedness.2.2.1 _ 5 'c' (by decide),
    operations_preserve_well_formedness.2.2.2.1
      ⟨2, node 3 (leaf 1 'a') (leaf 2 'b')⟩ ⟨1, leaf 1 'a'⟩
      (by decide) (by decide) (by decide),
    operations_preserve_well_formedness.2.2.2.2.1 _ 7 'd' 1 (by decide) (by decide),
    operations_preserve_well_formedness.2.2.2.2.2.2 _ (fun w a => (w + 1, a)) 0
      (by decide) (by decide)⟩

/-- C7: `insert` increases `size` by exactly one; on well-formed urns
`uninsert` and `remove_index` return an urn whose size is exactly one
less, and return an absent urn exactly when the size was 1. -/
theorem size_deltas {α : Type} :
    (∀ (u : Urn α) (w : Nat) (a : α), (u.insert w a).size = u.size + 1) ∧
    (∀ (u : Urn α), u.is_wf = true →
      ((u.uninsert).2.2 = none ↔ u.size = 1) ∧
      ∀ u', (u.uninsert).2.2 = some u' → u'.size + 1 = u.size) ∧
    (∀ (u : Urn α) (i : Nat), u.is_wf = true →
      ((u.remove_index i).2 = none ↔ u.size = 1) ∧
      ∀ u', (u.remove_index i).2 = some u' → u'.size + 1 = u.size) := by
  refine ⟨?_, ?_, ?_⟩
  · intro u w a
    rfl
  · intro u h
    refine ⟨uninsert_none_iff u h, ?_⟩
    intro u' hs
    have h1 := uninsert_some_size u u' hs
    have h2 := wf_size_pos u h
    omega
  · intro u i h
    refine ⟨(remove_none_iff u i).trans (uninsert_none_iff u h), ?_⟩
    intro u' hs
    obtain ⟨u0, hu0, hsz⟩ := remove_some_cases u i u' hs
    have h1 := uninsert_some_size u u0 hu0
    have h2 := wf_size_pos u h
    omega

/-- Witness for C7 at concrete urns. -/
theorem size_deltas_witness :
    ((singleton 1 'a').insert 2 'b').size = (singleton 1 'a').size + 1 ∧
    (((⟨2, node 3 (leaf 1 'a') (leaf 2 'b')⟩ : Urn Char).uninsert).2.2 = none ↔
      (⟨2, node 3 (leaf 1 'a') (leaf 2 'b')⟩ : Urn Char).size = 1) ∧
    ((⟨1, leaf 1 'a'⟩ : Urn Char).size + 1
      = (⟨2, node 3 (leaf 1 'a') (leaf 2 'b')⟩ : Urn Char).size) := by
  refine ⟨size_deltas.1 (singleton 1 'a') 2 'b',
    (size_deltas.2.1 ⟨2, node 3 (leaf 1 'a') (leaf 2 'b')⟩ (by decide)).1,
    (size_deltas.2.2 ⟨2, node 3 (leaf 1 'a') (leaf 2 'b')⟩ 0 (by decide)).2
      ⟨1, leaf 1 'a'⟩ (by decide)⟩

/-- C8: on every one-element input the bulk constructor decides that the
lone depth-0 slot must consume two elements (its remainder is
`1 - (0 << 1) = 1 > reverseBits(0, 0)`), reaches the input-exhausted
contract-violation branch, and so `from_list` never returns a singleton
urn (`none` models the panic). -/
theorem from_list_fails_on_every_one_element_input {α : Type} (w : Nat) (a : α) :
    from_list [(w, a)] = none ∧ reverse_bits (ilog2 1) 0 < 1 - (ilog2 1 <<< 1) := by
  exact ⟨rfl, by decide⟩

/-- C9: on any tree satisfying the exact (non-overflowing) weight
invariant I1, `sample_index` is total for out-of-range indices: every
index at or above the tree's weight falls through to the rightmost
leaf's value.  In particular the inclusive random draw from
`[0, weight]` used by the randomized wrappers cannot make `sample_index`
fail, only bias the rightmost leaf. -/
theorem sample_index_total_beyond_weight (t : Tree α)
    (h : exact_weights t = true) (i : Nat) (hi : t.weight ≤ i) :
    t.sample_index i = rightmost_value t :=
  sample_index_ge_weight t h i hi

/-- Witness for C9 at the boundary index `i = weight`. -/
theorem sample_index_total_beyond_weight_witness :
    Tree.sample_index (node 3 (leaf 1 'a') (leaf 2 'b')) 3 = 'b' :=
  sample_index_total_beyond_weight (node 3 (leaf 1 'a') (leaf 2 'b'))
    (by decide) 3 (by decide)

/-- C10: the concrete bit-reversal examples from the spec (and the
repository's unit tests): reversing 3 bits of 0b110 gives 0b011,
4 bits of 0b1100 gives 0b0011, 5 bits of 0b011 gives 0b11000,
3 bits of 0 give 0, and 1 bit of 1 gives 1. -/
theorem reverse_bits_examples :
    reverse_bits 3 6 = 3 ∧ reverse_bits 4 12 = 3 ∧ reverse_bits 5 3 = 24 ∧
    reverse_bits 3 0 = 0 ∧ reverse_bits 1 1 = 1 := by decide

end Urns
